import Mathlib

/-!
Verification of the odds-normalization and historical-analytics engine of the
NBA player stats repository.  The repository ships its frontend (TypeScript)
only; the backend engine described in the design document (OddsMath,
ThresholdAnalytics, CacheLayer) is modelled here directly from that document,
while the frontend components (`calculateMode`, the bet-slip context, the
bookmaker selector) are embedded from their TypeScript source.
All numeric values are modelled as rationals.
-/

namespace NoVig

/-- Error values of the OddsMath module, named as in the design document. -/
inductive OddsError where
  | InvalidOddsError
  | DegenerateMarketError
deriving DecidableEq, Repr

/-- Modelled from the spec: the backend OddsMath module (design document §4.1)
is not part of the frontend-only source tree; only its formulas are documented
(also rendered verbatim on `frontend/app/about/page.tsx`).  American odds to
implied probability: for `price < 0`, `p = |price| / (|price| + 100)`; for
`price > 0`, `p = 100 / (price + 100)`; `price == 0` is `InvalidOddsError`. -/
def implied_probability (price : ℤ) : Except OddsError ℚ :=
  if price = 0 then Except.error OddsError.InvalidOddsError
  else if price < 0 then Except.ok (|(price : ℚ)| / (|(price : ℚ)| + 100))
  else Except.ok (100 / ((price : ℚ) + 100))

/-- Modelled from the spec: bookmaker margin, `p_over + p_under - 1`
(design document §4.1). -/
def vig (pOver pUnder : ℚ) : ℚ := pOver + pUnder - 1

/-- Modelled from the spec: no-vig renormalization (design document §4.1);
fails with `DegenerateMarketError` when `p_over + p_under <= 0`. -/
def no_vig_pair (pOver pUnder : ℚ) : Except OddsError (ℚ × ℚ) :=
  if pOver + pUnder ≤ 0 then Except.error OddsError.DegenerateMarketError
  else Except.ok (pOver / (pOver + pUnder), pUnder / (pOver + pUnder))

/-- C1: for every non-zero American odds price, `implied_probability` returns
the documented formula value (`|price|/(|price|+100)` for negative prices,
`100/(price+100)` for positive ones), which lies strictly between 0 and 1;
for `price = 0` it fails with `InvalidOddsError`. -/
theorem implied_probability_spec :
    implied_probability 0 = Except.error OddsError.InvalidOddsError ∧
    ∀ price : ℤ, price ≠ 0 →
      ∃ p : ℚ, implied_probability price = Except.ok p ∧ 0 < p ∧ p < 1 ∧
        (price < 0 → p = |(price : ℚ)| / (|(price : ℚ)| + 100)) ∧
        (0 < price → p = 100 / ((price : ℚ) + 100)) := by
  refine ⟨rfl, ?_⟩
  intro price hne
  have hq : (price : ℚ) ≠ 0 := Int.cast_ne_zero.mpr hne
  by_cases hneg : price < 0
  · have habs : 0 < |(price : ℚ)| := abs_pos.mpr hq
    refine ⟨|(price : ℚ)| / (|(price : ℚ)| + 100), ?_, ?_, ?_, fun _ => rfl,
      fun hpos => absurd hpos (by omega)⟩
    · simp [implied_probability, hne, hneg]
    · exact div_pos habs (by linarith)
    · exact (div_lt_one (by linarith)).mpr (by linarith)
  · have hpos : 0 < price := lt_of_le_of_ne (not_lt.mp hneg) (Ne.symm hne)
    have hposq : (0 : ℚ) < (price : ℚ) := by exact_mod_cast hpos
    refine ⟨100 / ((price : ℚ) + 100), ?_, ?_, ?_,
      fun hneg' => absurd hneg' (by omega), fun _ => rfl⟩
    · simp [implied_probability, hne, hneg]
    · exact div_pos (by norm_num) (by linarith)
    · exact (div_lt_one (by linarith)).mpr (by linarith)

/-- Witness for C1 at the concrete price -110. -/
theorem implied_probability_spec_witness :
    (-110 : ℤ) ≠ 0 ∧
    ∃ p : ℚ, implied_probability (-110) = Except.ok p ∧ 0 < p ∧ p < 1 ∧
      ((-110 : ℤ) < 0 → p = |((-110 : ℤ) : ℚ)| / (|((-110 : ℤ) : ℚ)| + 100)) ∧
      (0 < (-110 : ℤ) → p = 100 / (((-110 : ℤ) : ℚ) + 100)) :=
  ⟨by decide, implied_probability_spec.2 (-110) (by decide)⟩

/-- C2: for every pair of implied probabilities with positive sum `s`,
`no_vig_pair` returns `(p_over/s, p_under/s)`, whose components sum to exactly
1 (hence to 1.0 within 1e-9); for `s <= 0` it fails with
`DegenerateMarketError`. -/
theorem no_vig_pair_spec :
    ∀ pOver pUnder : ℚ,
      (0 < pOver + pUnder →
        no_vig_pair pOver pUnder =
          Except.ok (pOver / (pOver + pUnder), pUnder / (pOver + pUnder)) ∧
        pOver / (pOver + pUnder) + pUnder / (pOver + pUnder) = 1 ∧
        |pOver / (pOver + pUnder) + pUnder / (pOver + pUnder) - 1| ≤
          1 / 1000000000) ∧
      (pOver + pUnder ≤ 0 →
        no_vig_pair pOver pUnder = Except.error OddsError.DegenerateMarketError) := by
  intro pOver pUnder
  constructor
  · intro hpos
    have hsum : pOver / (pOver + pUnder) + pUnder / (pOver + pUnder) = 1 := by
      rw [div_add_div_same, div_self (ne_of_gt hpos)]
    refine ⟨?_, hsum, ?_⟩
    · simp [no_vig_pair, not_le.mpr hpos]
    · rw [hsum]; norm_num
  · intro hle
    simp [no_vig_pair, hle]

/-- Witness for C2 at the two -110 implied probabilities. -/
theorem no_vig_pair_spec_witness :
    (0 : ℚ) < 11 / 21 + 11 / 21 ∧
    (no_vig_pair (11 / 21) (11 / 21) =
        Except.ok ((11 : ℚ) / 21 / (11 / 21 + 11 / 21),
          (11 : ℚ) / 21 / (11 / 21 + 11 / 21)) ∧
      (11 : ℚ) / 21 / (11 / 21 + 11 / 21) + 11 / 21 / (11 / 21 + 11 / 21) = 1 ∧
      |(11 : ℚ) / 21 / (11 / 21 + 11 / 21) + 11 / 21 / (11 / 21 + 11 / 21) - 1| ≤
        1 / 1000000000) :=
  ⟨by norm_num, (no_vig_pair_spec (11 / 21) (11 / 21)).1 (by norm_num)⟩

/-- C5: the worked example of the About page: price -110 gives implied
probability 11/21 (0.5238 within 0.0001, i.e. the rendered 52.38%), two such
quotes have implied sum within 0.0001 of the rendered 104.76%, vig 1/21
(within 0.0001 of the rendered 4.76%), and fair probabilities exactly 1/2
(the rendered 50%). -/
theorem about_page_example :
    implied_probability (-110) = Except.ok (11 / 21) ∧
    |(11 : ℚ) / 21 - 5238 / 10000| < 1 / 10000 ∧
    |(11 : ℚ) / 21 + 11 / 21 - 10476 / 10000| < 1 / 10000 ∧
    vig (11 / 21) (11 / 21) = 1 / 21 ∧
    |(1 : ℚ) / 21 - 476 / 10000| < 1 / 10000 ∧
    no_vig_pair (11 / 21) (11 / 21) = Except.ok (1 / 2, 1 / 2) := by
  refine ⟨by norm_num [implied_probability], by norm_num [abs_lt],
    by norm_num [abs_lt], by norm_num [vig], by norm_num [abs_lt],
    by norm_num [no_vig_pair]⟩

/-- One histogram bin, as in the design document's data model. -/
structure HistogramBin where
  bin_start : ℚ
  bin_end : ℚ
  count : ℕ
deriving DecidableEq, Repr

/-- Modelled from the spec: the bins parameter is clamped to [5, 50]
(design document §4.5). -/
def clampBins (bins : ℕ) : ℕ := min 50 (max 5 bins)

/-- Modelled from the spec: the "small epsilon" by which a degenerate range is
widened symmetrically (design document §4.5 leaves its magnitude open). -/
def histEps : ℚ := 1 / 1000

/-- Minimum of a list of values (0 on the empty list, which is never used). -/
def listMin : List ℚ → ℚ
  | [] => 0
  | v :: vs => vs.foldl min v

/-- Maximum of a list of values (0 on the empty list, which is never used). -/
def listMax : List ℚ → ℚ
  | [] => 0
  | v :: vs => vs.foldl max v

/-- Modelled from the spec: the histogram range `[lo, hi]`; when
`hi == lo` the range is widened symmetrically by `histEps`
(design document §4.5). -/
def histRange (values : List ℚ) : ℚ × ℚ :=
  let lo := listMin values
  let hi := listMax values
  if hi = lo then (lo - histEps, hi + histEps) else (lo, hi)

/-- Modelled from the spec: the common bin width `(hi - lo) / bins`. -/
def histWidth (values : List ℚ) (bins : ℕ) : ℚ :=
  ((histRange values).2 - (histRange values).1) / (clampBins bins : ℚ)

/-- Modelled from the spec: each value maps to `floor((value - lo) / width)`,
clamped to `bins - 1` (design document §4.5). -/
def binIndex (lo width : ℚ) (b : ℕ) (v : ℚ) : ℕ :=
  min (⌊(v - lo) / width⌋.toNat) (b - 1)

/-- Modelled from the spec: the histogram of a set of included values
(design document §4.5): `clampBins bins` contiguous equal-width bins over
`histRange`, each value counted in its clamped bin index. -/
def histogram (values : List ℚ) (bins : ℕ) : List HistogramBin :=
  if values = [] then []
  else
    (List.range (clampBins bins)).map fun i : ℕ =>
      ⟨(histRange values).1 + (i : ℚ) * histWidth values bins,
       (histRange values).1 + ((i : ℚ) + 1) * histWidth values bins,
       values.countP fun v =>
         decide (binIndex (histRange values).1 (histWidth values bins)
           (clampBins bins) v = i)⟩

/-- Arithmetic mean of a list of values. -/
def meanOf (values : List ℚ) : ℚ := values.sum / (values.length : ℚ)

/-- The output record of ThresholdAnalytics (design document §4.5). -/
structure ThresholdStats where
  n : ℕ
  n_over : ℕ
  n_under : ℕ
  n_equal : ℕ
  p_over : Option ℚ
  p_under : Option ℚ
  mean : Option ℚ
  std : Option ℚ
  histogram : List HistogramBin
deriving DecidableEq, Repr

/-- Modelled from the spec: ThresholdAnalytics (design document §4.5).
Classification is strict (`over` iff `value > threshold`, `under` iff
`value < threshold`), equal values are counted separately and excluded from
both probability denominators, and `n == 0` yields null summary fields and an
empty histogram.  The spec names a `std` summary statistic without giving a
formula; since no claim concerns its value (only that it is null exactly when
`n == 0`), the field carries the population variance, which has the same
definedness. -/
def thresholdStats (values : List ℚ) (t : ℚ) (bins : ℕ) : ThresholdStats :=
  if values = [] then ⟨0, 0, 0, 0, none, none, none, none, []⟩
  else
    ⟨values.length,
      values.countP fun v => decide (t < v),
      values.countP fun v => decide (v < t),
      values.countP fun v => decide (v = t),
      some (((values.countP fun v => decide (t < v)) : ℚ) /
        ((values.length - (values.countP fun v => decide (v = t)) : ℕ) : ℚ)),
      some (((values.countP fun v => decide (v < t)) : ℚ) /
        ((values.length - (values.countP fun v => decide (v = t)) : ℕ) : ℚ)),
      some (meanOf values),
      some ((values.map fun v => (v - meanOf values) ^ 2).sum /
        (values.length : ℚ)),
      histogram values bins⟩

/-- Error values of the analytics query surface (design document §7, §8.4):
missing or garbled input parameters are input errors. -/
inductive AnalyticsError where
  | MissingThreshold
deriving DecidableEq, Repr

/-- Modelled from the spec: the analytics query surface (design document §6,
§8.4 of the embedded API document): a missing threshold is a 400-style input
error, while an empty filtered set is a normal `ok` result. -/
def analyticsQuery (threshold : Option ℚ) (values : List ℚ) (bins : ℕ) :
    Except AnalyticsError ThresholdStats :=
  match threshold with
  | none => Except.error AnalyticsError.MissingThreshold
  | some t => Except.ok (thresholdStats values t bins)

theorem countP_trichotomy (l : List ℚ) (t : ℚ) :
    (l.countP fun v => decide (t < v)) + (l.countP fun v => decide (v < t)) +
      (l.countP fun v => decide (v = t)) = l.length := by
  induction l with
  | nil => simp
  | cons x xs ih =>
    rcases lt_trichotomy t x with h | h | h
    · simp only [List.countP_cons, decide_eq_true_eq, List.length_cons]
      rw [if_pos h, if_neg (asymm h), if_neg (ne_of_gt h)]
      omega
    · simp only [List.countP_cons, decide_eq_true_eq, List.length_cons]
      rw [if_neg (by simp [h]), if_neg (by simp [h]), if_pos h.symm]
      omega
    · simp only [List.countP_cons, decide_eq_true_eq, List.length_cons]
      rw [if_neg (asymm h), if_pos h, if_neg (ne_of_lt h)]
      omega

theorem sum_map_add {α : Type} (l : List α) (g h : α → ℕ) :
    (l.map fun i => g i + h i).sum = (l.map g).sum + (l.map h).sum := by
  induction l with
  | nil => rfl
  | cons x xs ih => simp [List.map_cons, List.sum_cons, ih]; omega

theorem sum_indicator_range (b j : ℕ) (h : j < b) :
    ((List.range b).map fun i => if j = i then 1 else 0).sum = 1 := by
  induction b with
  | zero => omega
  | succ b ih =>
    rw [List.range_succ, List.map_append, List.sum_append]
    rcases Nat.lt_or_ge j b with hj | hj
    · rw [ih hj]
      simp [Nat.ne_of_lt hj]
    · have hjb : j = b := by omega
      subst hjb
      have : ((List.range j).map fun i => if j = i then 1 else 0).sum = 0 := by
        apply List.sum_eq_zero
        intro x hx
        rcases List.mem_map.mp hx with ⟨i, hi, hix⟩
        have : i < j := List.mem_range.mp hi
        simp [Nat.ne_of_gt this] at hix
        omega
      simp [this]

theorem countP_bucket_sum (l : List ℚ) (f : ℚ → ℕ) (b : ℕ)
    (hf : ∀ v ∈ l, f v < b) :
    ((List.range b).map fun i => l.countP fun v => decide (f v = i)).sum =
      l.length := by
  induction l with
  | nil => simp
  | cons x xs ih =>
    have hx : f x < b := hf x (List.mem_cons_self x xs)
    have hxs : ∀ v ∈ xs, f v < b := fun v hv => hf v (List.mem_cons_of_mem x hv)
    have hcons : ∀ i : ℕ, ((x :: xs).countP fun v => decide (f v = i)) =
        (xs.countP fun v => decide (f v = i)) + (if f x = i then 1 else 0) := by
      intro i
      rw [List.countP_cons]
      simp
    calc ((List.range b).map fun i =>
            (x :: xs).countP fun v => decide (f v = i)).sum
        = ((List.range b).map fun i =>
            (xs.countP fun v => decide (f v = i)) +
              (if f x = i then 1 else 0)).sum := by
          congr 1
          exact List.map_congr_left fun i _ => hcons i
      _ = ((List.range b).map fun i =>
            xs.countP fun v => decide (f v = i)).sum +
            ((List.range b).map fun i => if f x = i then 1 else 0).sum :=
          sum_map_add _ _ _
      _ = xs.length + 1 := by rw [ih hxs, sum_indicator_range b (f x) hx]
      _ = (x :: xs).length := by simp

theorem foldl_min_le_acc {α : Type} [LinearOrder α] (vs : List α) (a : α) :
    vs.foldl min a ≤ a := by
  induction vs generalizing a with
  | nil => exact le_refl a
  | cons x xs ih =>
    calc (x :: xs).foldl min a = xs.foldl min (min a x) := rfl
    _ ≤ min a x := ih _
    _ ≤ a := min_le_left _ _

theorem foldl_min_le_mem {α : Type} [LinearOrder α] (vs : List α) (a v : α)
    (hv : v ∈ vs) : vs.foldl min a ≤ v := by
  induction vs generalizing a with
  | nil => cases hv
  | cons x xs ih =>
    rcases List.mem_cons.mp hv with h | h
    · subst h
      calc (v :: xs).foldl min a = xs.foldl min (min a v) := rfl
      _ ≤ min a v := foldl_min_le_acc _ _
      _ ≤ v := min_le_right _ _
    · exact ih _ h

theorem foldl_min_mem {α : Type} [LinearOrder α] (vs : List α) (a : α) :
    vs.foldl min a = a ∨ vs.foldl min a ∈ vs := by
  induction vs generalizing a with
  | nil => exact Or.inl rfl
  | cons x xs ih =>
    rcases ih (min a x) with h | h
    · rcases min_choice a x with hm | hm
      · exact Or.inl (by rw [List.foldl_cons, h, hm])
      · exact Or.inr (by rw [List.foldl_cons, h, hm]; exact List.mem_cons_self x xs)
    · exact Or.inr (List.mem_cons_of_mem x h)

theorem foldl_max_acc_le {α : Type} [LinearOrder α] (vs : List α) (a : α) :
    a ≤ vs.foldl max a := by
  induction vs generalizing a with
  | nil => exact le_refl a
  | cons x xs ih =>
    calc a ≤ max a x := le_max_left _ _
    _ ≤ xs.foldl max (max a x) := ih _
    _ = (x :: xs).foldl max a := rfl

theorem foldl_max_mem_le {α : Type} [LinearOrder α] (vs : List α) (a v : α)
    (hv : v ∈ vs) : v ≤ vs.foldl max a := by
  induction vs generalizing a with
  | nil => cases hv
  | cons x xs ih =>
    rcases List.mem_cons.mp hv with h | h
    · subst h
      calc v ≤ max a v := le_max_right _ _
      _ ≤ xs.foldl max (max a v) := foldl_max_acc_le _ _
      _ = (v :: xs).foldl max a := rfl
    · exact ih _ h

theorem foldl_max_mem {α : Type} [LinearOrder α] (vs : List α) (a : α) :
    vs.foldl max a = a ∨ vs.foldl max a ∈ vs := by
  induction vs generalizing a with
  | nil => exact Or.inl rfl
  | cons x xs ih =>
    rcases ih (max a x) with h | h
    · rcases max_choice a x with hm | hm
      · exact Or.inl (by rw [List.foldl_cons, h, hm])
      · exact Or.inr (by rw [List.foldl_cons, h, hm]; exact List.mem_cons_self x xs)
    · exact Or.inr (List.mem_cons_of_mem x h)

theorem listMin_le_mem (l : List ℚ) (v : ℚ) (hv : v ∈ l) : listMin l ≤ v := by
  cases l with
  | nil => cases hv
  | cons x xs =>
    rcases List.mem_cons.mp hv with h | h
    · subst h; exact foldl_min_le_acc xs v
    · exact foldl_min_le_mem xs x v h

theorem mem_le_listMax (l : List ℚ) (v : ℚ) (hv : v ∈ l) : v ≤ listMax l := by
  cases l with
  | nil => cases hv
  | cons x xs =>
    rcases List.mem_cons.mp hv with h | h
    · subst h; exact foldl_max_acc_le xs v
    · exact foldl_max_mem_le xs x v h

theorem listMin_le_listMax (l : List ℚ) (hne : l ≠ []) :
    listMin l ≤ listMax l := by
  cases l with
  | nil => exact absurd rfl hne
  | cons x xs =>
    calc listMin (x :: xs) ≤ x := foldl_min_le_acc xs x
    _ ≤ listMax (x :: xs) := foldl_max_acc_le xs x

/-- C3: classification is strict (`over` iff value > threshold, `under` iff
value < threshold), equal values are counted in `n_equal` and excluded from
both counts and both probability denominators, `n_over + n_under + n_equal = n`,
`p_over = n_over / (n - n_equal)` and `p_under = n_under / (n - n_equal)`;
for values [20,22,24,24,26,28,30,18,24,25] with threshold 24 this yields
`n_equal = 3`, `n_over = 4`, `n_under = 3`, `p_over = 4/7`. -/
theorem thresholdStats_classification :
    (∀ (values : List ℚ) (t : ℚ) (bins : ℕ), values ≠ [] →
      (thresholdStats values t bins).n = values.length ∧
      (thresholdStats values t bins).n_over =
        (values.countP fun v => decide (t < v)) ∧
      (thresholdStats values t bins).n_under =
        (values.countP fun v => decide (v < t)) ∧
      (thresholdStats values t bins).n_equal =
        (values.countP fun v => decide (v = t)) ∧
      (thresholdStats values t bins).n_over + (thresholdStats values t bins).n_under +
        (thresholdStats values t bins).n_equal = (thresholdStats values t bins).n ∧
      (thresholdStats values t bins).p_over =
        some (((thresholdStats values t bins).n_over : ℚ) /
          (((thresholdStats values t bins).n -
            (thresholdStats values t bins).n_equal : ℕ) : ℚ)) ∧
      (thresholdStats values t bins).p_under =
        some (((thresholdStats values t bins).n_under : ℚ) /
          (((thresholdStats values t bins).n -
            (thresholdStats values t bins).n_equal : ℕ) : ℚ))) ∧
    (thresholdStats [20, 22, 24, 24, 26, 28, 30, 18, 24, 25] 24 15).n_equal = 3 ∧
    (thresholdStats [20, 22, 24, 24, 26, 28, 30, 18, 24, 25] 24 15).n_over = 4 ∧
    (thresholdStats [20, 22, 24, 24, 26, 28, 30, 18, 24, 25] 24 15).n_under = 3 ∧
    (thresholdStats [20, 22, 24, 24, 26, 28, 30, 18, 24, 25] 24 15).p_over =
      some (4 / 7) := by
  refine ⟨?_, ?_, ?_, ?_, ?_⟩
  · intro values t bins hne
    unfold thresholdStats
    rw [if_neg hne]
    exact ⟨rfl, rfl, rfl, rfl, countP_trichotomy values t, rfl, rfl⟩
  · unfold thresholdStats
    rw [if_neg (by decide)]
    norm_num [List.countP_cons, List.countP_nil]
  · unfold thresholdStats
    rw [if_neg (by decide)]
    norm_num [List.countP_cons, List.countP_nil]
  · unfold thresholdStats
    rw [if_neg (by decide)]
    norm_num [List.countP_cons, List.countP_nil]
  · unfold thresholdStats
    rw [if_neg (by decide)]
    norm_num [List.countP_cons, List.countP_nil]

/-- Witness for C3 at the ten-game scenario list. -/
theorem thresholdStats_classification_witness :
    ([20, 22, 24, 24, 26, 28, 30, 18, 24, 25] : List ℚ) ≠ [] ∧
    ((thresholdStats [20, 22, 24, 24, 26, 28, 30, 18, 24, 25] 24 15).n =
        ([20, 22, 24, 24, 26, 28, 30, 18, 24, 25] : List ℚ).length ∧
      (thresholdStats [20, 22, 24, 24, 26, 28, 30, 18, 24, 25] 24 15).n_over =
        (([20, 22, 24, 24, 26, 28, 30, 18, 24, 25] : List ℚ).countP
          fun v => decide ((24 : ℚ) < v)) ∧
      (thresholdStats [20, 22, 24, 24, 26, 28, 30, 18, 24, 25] 24 15).n_under =
        (([20, 22, 24, 24, 26, 28, 30, 18, 24, 25] : List ℚ).countP
          fun v => decide (v < (24 : ℚ))) ∧
      (thresholdStats [20, 22, 24, 24, 26, 28, 30, 18, 24, 25] 24 15).n_equal =
        (([20, 22, 24, 24, 26, 28, 30, 18, 24, 25] : List ℚ).countP
          fun v => decide (v = (24 : ℚ))) ∧
      (thresholdStats [20, 22, 24, 24, 26, 28, 30, 18, 24, 25] 24 15).n_over +
        (thresholdStats [20, 22, 24, 24, 26, 28, 30, 18, 24, 25] 24 15).n_under +
        (thresholdStats [20, 22, 24, 24, 26, 28, 30, 18, 24, 25] 24 15).n_equal =
        (thresholdStats [20, 22, 24, 24, 26, 28, 30, 18, 24, 25] 24 15).n ∧
      (thresholdStats [20, 22, 24, 24, 26, 28, 30, 18, 24, 25] 24 15).p_over =
        some (((thresholdStats [20, 22, 24, 24, 26, 28, 30, 18, 24, 25] 24 15).n_over : ℚ) /
          (((thresholdStats [20, 22, 24, 24, 26, 28, 30, 18, 24, 25] 24 15).n -
            (thresholdStats [20, 22, 24, 24, 26, 28, 30, 18, 24, 25] 24 15).n_equal : ℕ) : ℚ)) ∧
      (thresholdStats [20, 22, 24, 24, 26, 28, 30, 18, 24, 25] 24 15).p_under =
        some (((thresholdStats [20, 22, 24, 24, 26, 28, 30, 18, 24, 25] 24 15).n_under : ℚ) /
          (((thresholdStats [20, 22, 24, 24, 26, 28, 30, 18, 24, 25] 24 15).n -
            (thresholdStats [20, 22, 24, 24, 26, 28, 30, 18, 24, 25] 24 15).n_equal : ℕ) : ℚ))) :=
  ⟨by decide,
    thresholdStats_classification.1 [20, 22, 24, 24, 26, 28, 30, 18, 24, 25] 24 15
      (by decide)⟩

/-- C6: an empty filtered set yields a normal result with `p_over`, `p_under`,
`mean` and `std` all null and an empty histogram, not an error. -/
theorem empty_set_is_not_an_error :
    ∀ (t : ℚ) (bins : ℕ),
      analyticsQuery (some t) [] bins =
        Except.ok ⟨0, 0, 0, 0, none, none, none, none, []⟩ := by
  intro t bins
  rfl

theorem clampBins_mem (bins : ℕ) : 5 ≤ clampBins bins ∧ clampBins bins ≤ 50 := by
  unfold clampBins
  omega

theorem clampBins_eq_self (bins : ℕ) (h5 : 5 ≤ bins) (h50 : bins ≤ 50) :
    clampBins bins = bins := by
  unfold clampBins
  omega

theorem histRange_of_lt (values : List ℚ) (h : listMin values < listMax values) :
    histRange values = (listMin values, listMax values) := by
  unfold histRange
  rw [if_neg (ne_of_gt h)]

theorem histRange_of_eq (values : List ℚ) (h : listMax values = listMin values) :
    histRange values = (listMin values - histEps, listMax values + histEps) := by
  unfold histRange
  rw [if_pos h]

theorem histRange_lt (values : List ℚ) (hne : values ≠ []) :
    (histRange values).1 < (histRange values).2 := by
  by_cases h : listMax values = listMin values
  · rw [histRange_of_eq values h, h]
    have heps : (0 : ℚ) < histEps := by norm_num [histEps]
    simp only
    linarith
  · have hlt : listMin values < listMax values :=
      lt_of_le_of_ne (listMin_le_listMax values hne) (Ne.symm h)
    rw [histRange_of_lt values hlt]
    exact hlt

theorem histRange_mem_bounds (values : List ℚ) (v : ℚ) (hv : v ∈ values) :
    (histRange values).1 ≤ v ∧ v ≤ (histRange values).2 := by
  have h1 := listMin_le_mem values v hv
  have h2 := mem_le_listMax values v hv
  by_cases h : listMax values = listMin values
  · rw [histRange_of_eq values h]
    constructor
    · simp only
      have : (0 : ℚ) < histEps := by norm_num [histEps]
      linarith
    · simp only
      have : (0 : ℚ) < histEps := by norm_num [histEps]
      linarith
  · have hlt : listMin values < listMax values :=
      lt_of_le_of_ne (listMin_le_listMax values (by rintro rfl; simp at hv))
        (Ne.symm h)
    rw [histRange_of_lt values hlt]
    exact ⟨h1, h2⟩

theorem histWidth_pos (values : List ℚ) (bins : ℕ) (hne : values ≠ []) :
    0 < histWidth values bins := by
  unfold histWidth
  apply div_pos (sub_pos.mpr (histRange_lt values hne))
  have hb : 0 < clampBins bins := by
    have := (clampBins_mem bins).1
    omega
  exact_mod_cast hb

theorem histogram_length (values : List ℚ) (bins : ℕ) (hne : values ≠ []) :
    (histogram values bins).length = clampBins bins := by
  unfold histogram
  rw [if_neg hne]
  simp

theorem histogram_getD (values : List ℚ) (bins : ℕ) (hne : values ≠ []) (i : ℕ)
    (hi : i < clampBins bins) (d : HistogramBin) :
    (histogram values bins).getD i d =
      ⟨(histRange values).1 + i * histWidth values bins,
       (histRange values).1 + (i + 1) * histWidth values bins,
       values.countP fun v =>
         decide (binIndex (histRange values).1 (histWidth values bins)
           (clampBins bins) v = i)⟩ := by
  unfold histogram
  rw [if_neg hne, List.getD_eq_getElem?_getD, List.getElem?_map,
    List.getElem?_range hi]
  rfl

theorem binIndex_lt (lo width : ℚ) (b : ℕ) (hb : 0 < b) (v : ℚ) :
    binIndex lo width b v < b := by
  unfold binIndex
  omega

theorem histogram_count_sum (values : List ℚ) (bins : ℕ) (hne : values ≠ []) :
    ((histogram values bins).map HistogramBin.count).sum = values.length := by
  unfold histogram
  rw [if_neg hne, List.map_map]
  have hb : 0 < clampBins bins := by
    have := (clampBins_mem bins).1
    omega
  exact countP_bucket_sum values
    (binIndex (histRange values).1 (histWidth values bins) (clampBins bins))
    (clampBins bins)
    (fun v _ => binIndex_lt _ _ _ hb v)

theorem binIndex_max (values : List ℚ) (bins : ℕ)
    (hlt : listMin values < listMax values) :
    binIndex (histRange values).1 (histWidth values bins) (clampBins bins)
      (listMax values) = clampBins bins - 1 := by
  have hb : 0 < clampBins bins := by
    have := (clampBins_mem bins).1
    omega
  have hr := histRange_of_lt values hlt
  have hlo : (histRange values).1 = listMin values := by rw [hr]
  have hhi : (histRange values).2 = listMax values := by rw [hr]
  have hbq : ((clampBins bins : ℚ)) ≠ 0 := Nat.cast_ne_zero.mpr (by omega)
  have hdne : listMax values - listMin values ≠ 0 := by
    exact sub_ne_zero.mpr (ne_of_gt hlt)
  have hquot : (listMax values - (histRange values).1) / histWidth values bins =
      (clampBins bins : ℚ) := by
    unfold histWidth
    rw [hlo, hhi]
    field_simp
  unfold binIndex
  rw [hquot]
  rw [Int.floor_natCast]
  simp only [Int.toNat_natCast]
  omega

/-- C4: for a non-empty value list, the histogram has exactly
`clampBins bins` bins (`bins` clamped to [5, 50], the identity inside that
range), the bins are contiguous equal-width intervals starting at the range
minimum and ending at the range maximum (the range being `[min, max]` when
`min < max` and the epsilon-widened interval when `max == min`), each value is
counted under the bin index `floor((v - lo) / width)` clamped to `bins - 1`
(so the maximum value falls into the last bin when `min < max`), and the bin
counts sum exactly to the number of included values. -/
theorem histogram_spec :
    ∀ (values : List ℚ) (bins : ℕ), values ≠ [] →
      5 ≤ clampBins bins ∧ clampBins bins ≤ 50 ∧
      (5 ≤ bins → bins ≤ 50 → clampBins bins = bins) ∧
      (histogram values bins).length = clampBins bins ∧
      (∀ i : ℕ, i < clampBins bins →
        (histogram values bins).getD i ⟨0, 0, 0⟩ =
          ⟨(histRange values).1 + i * histWidth values bins,
           (histRange values).1 + (i + 1) * histWidth values bins,
           values.countP fun v =>
             decide (binIndex (histRange values).1 (histWidth values bins)
               (clampBins bins) v = i)⟩) ∧
      ((histogram values bins).getD 0 ⟨0, 0, 0⟩).bin_start =
        (histRange values).1 ∧
      ((histogram values bins).getD (clampBins bins - 1) ⟨0, 0, 0⟩).bin_end =
        (histRange values).2 ∧
      ((histogram values bins).map HistogramBin.count).sum = values.length ∧
      (listMin values < listMax values →
        (histRange values).1 = listMin values ∧
        (histRange values).2 = listMax values ∧
        binIndex (histRange values).1 (histWidth values bins) (clampBins bins)
          (listMax values) = clampBins bins - 1) ∧
      (listMax values = listMin values →
        (histRange values).1 = listMin values - histEps ∧
        (histRange values).2 = listMax values + histEps) := by
  intro values bins hne
  have hb5 := (clampBins_mem bins).1
  have hb50 := (clampBins_mem bins).2
  have hb : 0 < clampBins bins := by omega
  have hbq : ((clampBins bins : ℚ)) ≠ 0 := Nat.cast_ne_zero.mpr (by omega)
  refine ⟨hb5, hb50, clampBins_eq_self bins, histogram_length values bins hne,
    fun i hi => histogram_getD values bins hne i hi ⟨0, 0, 0⟩, ?_, ?_,
    histogram_count_sum values bins hne, ?_, ?_⟩
  · rw [histogram_getD values bins hne 0 hb]
    simp
  · rw [histogram_getD values bins hne (clampBins bins - 1) (by omega)]
    show (histRange values).1 +
        ((clampBins bins - 1 : ℕ) + 1 : ℚ) * histWidth values bins =
      (histRange values).2
    have hcast : ((clampBins bins - 1 : ℕ) : ℚ) + 1 = (clampBins bins : ℚ) := by
      have : (clampBins bins - 1 : ℕ) + 1 = clampBins bins := by omega
      exact_mod_cast congrArg (fun n : ℕ => (n : ℚ)) this
    rw [hcast]
    unfold histWidth
    field_simp
  · intro hlt
    have hr := histRange_of_lt values hlt
    exact ⟨by rw [hr], by rw [hr], binIndex_max values bins hlt⟩
  · intro heq
    have hr := histRange_of_eq values heq
    exact ⟨by rw [hr], by rw [hr]⟩

/-- Witness for C4 at the concrete list [0, 1, 2] with the default 15 bins. -/
theorem histogram_spec_witness :
    ([(0 : ℚ), 1, 2] ≠ []) ∧
    (histogram [(0 : ℚ), 1, 2] 15).length = clampBins 15 ∧
    ((histogram [(0 : ℚ), 1, 2] 15).map HistogramBin.count).sum =
      ([(0 : ℚ), 1, 2]).length :=
  ⟨by decide, (histogram_spec [(0 : ℚ), 1, 2] 15 (by decide)).2.2.2.1,
    (histogram_spec [(0 : ℚ), 1, 2] 15 (by decide)).2.2.2.2.2.2.2.1⟩

/-- A cache entry: a stored value with its insertion timestamp
(design document §3, CacheEntry; the ttl is supplied per call). -/
structure CacheEntry (α : Type) where
  value : α
  inserted_at : ℕ
deriving DecidableEq, Repr

/-- Lookup of the entry stored under a key, if any. -/
def lookupEntry {κ α : Type} [DecidableEq κ] (st : List (κ × CacheEntry α))
    (key : κ) : Option (CacheEntry α) :=
  match st with
  | [] => none
  | (k, e) :: rest => if k = key then some e else lookupEntry rest key

/-- Storing an entry fully replaces any entry previously stored under the
key (design document §4.6: replacing a key fully replaces the entry). -/
def storeEntry {κ α : Type} [DecidableEq κ] (st : List (κ × CacheEntry α))
    (key : κ) (e : CacheEntry α) : List (κ × CacheEntry α) :=
  (key, e) :: st.filter fun p => decide (p.1 ≠ key)

/-- Modelled from the spec: the CacheLayer's `get_or_compute(key, ttl,
compute_fn)` (design document §4.6) is backend code absent from the
frontend-only source tree.  On a hit within `ttl` the stored value is
returned without invoking `compute_fn`; on a miss or expiry `compute_fn` is
invoked and its result stored with a fresh timestamp.  The third component of
the result records whether `compute_fn` was invoked. -/
def get_or_compute {κ α : Type} [DecidableEq κ] (now : ℕ) (key : κ) (ttl : ℕ)
    (fn : Unit → α) (st : List (κ × CacheEntry α)) :
    α × List (κ × CacheEntry α) × Bool :=
  match lookupEntry st key with
  | some e =>
    if now < e.inserted_at + ttl then (e.value, st, false)
    else (fn (), storeEntry st key ⟨fn (), now⟩, true)
  | none => (fn (), storeEntry st key ⟨fn (), now⟩, true)

theorem lookupEntry_storeEntry {κ α : Type} [DecidableEq κ]
    (st : List (κ × CacheEntry α)) (key : κ) (e : CacheEntry α) :
    lookupEntry (storeEntry st key e) key = some e := by
  unfold storeEntry lookupEntry
  rw [if_pos rfl]

theorem get_or_compute_invoked_state {κ α : Type} [DecidableEq κ]
    (now : ℕ) (key : κ) (ttl : ℕ) (fn : Unit → α)
    (st : List (κ × CacheEntry α))
    (h : (get_or_compute now key ttl fn st).2.2 = true) :
    (get_or_compute now key ttl fn st).2.1 =
      storeEntry st key ⟨fn (), now⟩ := by
  cases hl : lookupEntry st key with
  | none => simp [get_or_compute, hl]
  | some e =>
    by_cases ht : now < e.inserted_at + ttl
    · exfalso
      have hcopy := h
      simp [get_or_compute, hl, ht] at hcopy
    · simp [get_or_compute, hl, ht]

/-- C7: calling `get_or_compute` twice within `ttl` invokes the compute
function at most once for the key; a hit within `ttl` returns the stored
value without invoking the compute function and leaves the state unchanged;
a miss or an expired entry invokes the compute function and stores its result
with a fresh timestamp. -/
theorem get_or_compute_spec {κ α : Type} [DecidableEq κ]
    (st : List (κ × CacheEntry α)) (key : κ) (ttl : ℕ) (fn : Unit → α)
    (now1 now2 : ℕ) :
    (∀ e, lookupEntry st key = some e → now1 < e.inserted_at + ttl →
      get_or_compute now1 key ttl fn st = (e.value, st, false)) ∧
    ((lookupEntry st key = none ∨
        ∃ e, lookupEntry st key = some e ∧ e.inserted_at + ttl ≤ now1) →
      get_or_compute now1 key ttl fn st =
        (fn (), storeEntry st key ⟨fn (), now1⟩, true)) ∧
    (now1 ≤ now2 → now2 < now1 + ttl →
      ¬((get_or_compute now1 key ttl fn st).2.2 = true ∧
        (get_or_compute now2 key ttl fn
          (get_or_compute now1 key ttl fn st).2.1).2.2 = true)) := by
  refine ⟨?_, ?_, ?_⟩
  · intro e he ht
    simp [get_or_compute, he, ht]
  · intro h
    rcases h with h | ⟨e, he, ht⟩
    · simp [get_or_compute, h]
    · simp [get_or_compute, he, Nat.not_lt.mpr ht]
  · intro h12 h2ttl ⟨h1, h2⟩
    have hst := get_or_compute_invoked_state now1 key ttl fn st h1
    rw [hst] at h2
    have hlook := lookupEntry_storeEntry st key (⟨fn (), now1⟩ : CacheEntry α)
    simp [get_or_compute, hlook, h2ttl] at h2

/-- Witness for C7: two calls at times 0 and 1 with ttl 5 on an empty cache
invoke the compute function at most once. -/
theorem get_or_compute_spec_witness :
    (0 : ℕ) ≤ 1 ∧ (1 : ℕ) < 0 + 5 ∧
    ¬((get_or_compute 0 (0 : ℕ) 5 (fun _ => (7 : ℕ))
        ([] : List (ℕ × CacheEntry ℕ))).2.2 = true ∧
      (get_or_compute 1 (0 : ℕ) 5 (fun _ => (7 : ℕ))
        (get_or_compute 0 (0 : ℕ) 5 (fun _ => (7 : ℕ))
          ([] : List (ℕ × CacheEntry ℕ))).2.1).2.2 = true) :=
  ⟨by decide, by decide,
    (get_or_compute_spec ([] : List (ℕ × CacheEntry ℕ)) 0 5 (fun _ => 7)
      0 1).2.2 (by decide) (by decide)⟩

/-- Rounding to one decimal, `Math.round(num * 10) / 10` of
`PlayerHistoryStats.tsx`; `round` rounds halves up exactly like
JavaScript's `Math.round`. -/
def round1 (x : ℚ) : ℚ := ((round (x * 10) : ℤ) : ℚ) / 10

/-- The list of distinct values in first-occurrence order, as produced by
iterating `counts.set` on a JavaScript `Map` (insertion order). -/
def distinctKeys (l : List ℚ) : List ℚ :=
  l.foldl (fun acc v => if v ∈ acc then acc else acc ++ [v]) []

/-- Ascending sort, `[...numbers].sort((a, b) => a - b)`. -/
def jsSort (l : List ℚ) : List ℚ := l.mergeSort fun a b => decide (a ≤ b)

/-- The rounded values iterated by the counting loop of `calculateMode`. -/
def roundedOf (numbers : List ℚ) : List ℚ := numbers.map round1

/-- The keys of the `counts` map of `calculateMode` in insertion order. -/
def keysOf (numbers : List ℚ) : List ℚ := distinctKeys (roundedOf numbers)

/-- The `maxCount` of `calculateMode`: the greatest occurrence count among the
rounded values.  `Math.max` over the (non-empty) count collection is folded
with neutral initial value 0; every count is at least 1, so this agrees with
the JavaScript spread call. -/
def maxCountOf (numbers : List ℚ) : ℕ :=
  ((keysOf numbers).map fun v => (roundedOf numbers).count v).foldl max 0

/-- The `modes` array of `calculateMode`: the distinct rounded values whose
count attains `maxCount`, in insertion order. -/
def modesOf (numbers : List ℚ) : List ℚ :=
  (keysOf numbers).filter fun v =>
    decide ((roundedOf numbers).count v = maxCountOf numbers)

/-- The median computed by the `maxCount === 1` branch of `calculateMode`
before its final rounding: the middle element of the ascending sort for odd
length, the mean of the two middle elements for even length. -/
def medianSorted (numbers : List ℚ) : ℚ :=
  if (jsSort numbers).length % 2 = 0 then
    ((jsSort numbers).getD ((jsSort numbers).length / 2 - 1) 0 +
      (jsSort numbers).getD ((jsSort numbers).length / 2) 0) / 2
  else (jsSort numbers).getD ((jsSort numbers).length / 2) 0

/-- The `calculateMode` function of
`frontend/components/PlayerHistoryStats.tsx` (lines 74-99): `null` for an
empty list; the one-decimal-rounded median when every rounded value occurs
exactly once; the single mode when one rounded value has the strictly
greatest count; otherwise the one-decimal-rounded mean of the tied modes.
The two median sub-branches of the source both apply the final one-decimal
rounding, written here as `round1 (medianSorted numbers)`. -/
def calculateMode (numbers : List ℚ) : Option ℚ :=
  if numbers = [] then none
  else if maxCountOf numbers = 1 then some (round1 (medianSorted numbers))
  else if (modesOf numbers).length = 1 then some ((modesOf numbers).getD 0 0)
  else
    some (round1 ((modesOf numbers).sum / ((modesOf numbers).length : ℚ)))

theorem foldl_insert_mem (l acc : List ℚ) (x : ℚ) :
    x ∈ l.foldl (fun acc v => if v ∈ acc then acc else acc ++ [v]) acc ↔
      x ∈ acc ∨ x ∈ l := by
  induction l generalizing acc with
  | nil => simp
  | cons y ys ih =>
    rw [List.foldl_cons, ih]
    by_cases hy : y ∈ acc
    · rw [if_pos hy]
      constructor
      · rintro (h | h)
        · exact Or.inl h
        · exact Or.inr (List.mem_cons_of_mem y h)
      · rintro (h | h)
        · exact Or.inl h
        · rcases List.mem_cons.mp h with h | h
          · exact Or.inl (h ▸ hy)
          · exact Or.inr h
    · rw [if_neg hy]
      simp only [List.mem_append, List.mem_cons, List.mem_singleton]
      tauto

theorem foldl_insert_nodup (l acc : List ℚ) (h : acc.Nodup) :
    (l.foldl (fun acc v => if v ∈ acc then acc else acc ++ [v]) acc).Nodup := by
  induction l generalizing acc with
  | nil => exact h
  | cons y ys ih =>
    rw [List.foldl_cons]
    by_cases hy : y ∈ acc
    · rw [if_pos hy]
      exact ih acc h
    · rw [if_neg hy]
      apply ih
      simp [List.nodup_append, h, hy]

theorem distinctKeys_mem (l : List ℚ) (x : ℚ) :
    x ∈ distinctKeys l ↔ x ∈ l := by
  unfold distinctKeys
  rw [foldl_insert_mem]
  simp

theorem distinctKeys_nodup (l : List ℚ) : (distinctKeys l).Nodup :=
  foldl_insert_nodup l [] List.nodup_nil

theorem count_le_maxCountOf (numbers : List ℚ) (v : ℚ)
    (hv : v ∈ roundedOf numbers) :
    (roundedOf numbers).count v ≤ maxCountOf numbers := by
  apply foldl_max_mem_le
  exact List.mem_map_of_mem _ ((distinctKeys_mem _ v).mpr hv)

theorem maxCountOf_attained (numbers : List ℚ) (hne : numbers ≠ []) :
    ∃ v ∈ roundedOf numbers,
      (roundedOf numbers).count v = maxCountOf numbers := by
  rcases foldl_max_mem
      ((keysOf numbers).map fun v => (roundedOf numbers).count v) 0 with h | h
  · exfalso
    have hmem : ∃ x, x ∈ numbers := List.exists_mem_of_ne_nil numbers hne
    rcases hmem with ⟨x, hx⟩
    have hrx : round1 x ∈ roundedOf numbers := List.mem_map_of_mem _ hx
    have h1 : 1 ≤ (roundedOf numbers).count (round1 x) :=
      List.one_le_count_iff.mpr hrx
    have h2 := count_le_maxCountOf numbers (round1 x) hrx
    have h0 : maxCountOf numbers = 0 := h
    omega
  · rcases List.mem_map.mp h with ⟨v, hv, hcount⟩
    exact ⟨v, (distinctKeys_mem _ v).mp hv, hcount⟩

theorem filter_eq_singleton_of_nodup {α : Type} (L : List α) (p : α → Bool)
    (m : α) (hnd : L.Nodup) (hm : m ∈ L)
    (hiff : ∀ v ∈ L, p v = true ↔ v = m) : L.filter p = [m] := by
  induction L with
  | nil => cases hm
  | cons x xs ih =>
    rcases List.mem_cons.mp hm with hx | hx
    · have hpx : p x = true := (hiff x (List.mem_cons_self x xs)).mpr hx.symm
      rw [List.filter_cons, if_pos hpx]
      have hxs : xs.filter p = [] := by
        apply List.filter_eq_nil_iff.mpr
        intro v hv hpv
        have hvm := (hiff v (List.mem_cons_of_mem x hv)).mp hpv
        rw [hvm, hx] at hv
        exact (List.nodup_cons.mp hnd).1 hv
      rw [hxs, ← hx]
    · have hpx : ¬ p x = true := by
        intro hpx
        have := (hiff x (List.mem_cons_self x xs)).mp hpx
        subst this
        exact (List.nodup_cons.mp hnd).1 hx
      rw [List.filter_cons, if_neg hpx]
      exact ih (List.nodup_cons.mp hnd).2 hx
        (fun v hv => hiff v (List.mem_cons_of_mem x hv))

theorem two_mem_le_length {α : Type} (L : List α) (a b : α) (ha : a ∈ L)
    (hb : b ∈ L) (hab : a ≠ b) : 2 ≤ L.length := by
  cases L with
  | nil => cases ha
  | cons x xs =>
    cases xs with
    | nil =>
      have h1 := List.mem_singleton.mp ha
      have h2 := List.mem_singleton.mp hb
      exact absurd (h1.trans h2.symm) hab
    | cons y ys =>
      simp only [List.length_cons]
      omega

theorem maxCountOf_eq_one (l : List ℚ) (hne : l ≠ [])
    (hall : ∀ v ∈ roundedOf l, (roundedOf l).count v = 1) :
    maxCountOf l = 1 := by
  rcases maxCountOf_attained l hne with ⟨v, hv, hcnt⟩
  rw [← hcnt, hall v hv]

theorem ne_nil_of_mem_rounded (l : List ℚ) (m : ℚ) (hm : m ∈ roundedOf l) :
    l ≠ [] := by
  rintro rfl
  simp [roundedOf] at hm

theorem count_eq_maxCountOf_of_strict (l : List ℚ) (m : ℚ)
    (hm : m ∈ roundedOf l)
    (hstrict : ∀ w ∈ roundedOf l, w ≠ m →
      (roundedOf l).count w < (roundedOf l).count m) :
    (roundedOf l).count m = maxCountOf l := by
  have hne := ne_nil_of_mem_rounded l m hm
  have hle := count_le_maxCountOf l m hm
  rcases maxCountOf_attained l hne with ⟨w, hw, hcw⟩
  by_cases hwm : w = m
  · rw [← hwm]
    exact hcw
  · have := hstrict w hw hwm
    omega

theorem modesOf_eq_singleton (l : List ℚ) (m : ℚ) (hm : m ∈ roundedOf l)
    (hstrict : ∀ w ∈ roundedOf l, w ≠ m →
      (roundedOf l).count w < (roundedOf l).count m) :
    modesOf l = [m] := by
  have hcm := count_eq_maxCountOf_of_strict l m hm hstrict
  apply filter_eq_singleton_of_nodup _ _ _ (distinctKeys_nodup _)
    ((distinctKeys_mem _ m).mpr hm)
  intro v hv
  have hvr : v ∈ roundedOf l := (distinctKeys_mem _ v).mp hv
  constructor
  · intro hpv
    have hcv : (roundedOf l).count v = maxCountOf l := by
      simpa using hpv
    by_contra hvm
    have := hstrict v hvr hvm
    omega
  · intro hvm
    subst hvm
    simp [hcm]

/-- C8 (amended): `calculateMode` returns `null` exactly on the empty list;
when every rounded value occurs exactly once it returns the median of the
original list rounded to one decimal (for even length, the mean of the two
middle elements rounded to one decimal; for odd length, the middle element
rounded to one decimal); when a unique rounded value has the strictly
greatest count it returns that value; when several rounded values tie for the
maximal count, that count exceeding one, it returns their arithmetic mean
rounded to one decimal. -/
theorem calculateMode_spec :
    calculateMode [] = none ∧
    (∀ l : List ℚ, l ≠ [] → ∃ q, calculateMode l = some q) ∧
    (∀ l : List ℚ, l ≠ [] →
      (∀ v ∈ roundedOf l, (roundedOf l).count v = 1) →
      calculateMode l = some (round1 (medianSorted l))) ∧
    (∀ (l : List ℚ) (m : ℚ), m ∈ roundedOf l →
      (∀ w ∈ roundedOf l, w ≠ m →
        (roundedOf l).count w < (roundedOf l).count m) →
      calculateMode l = some m) ∧
    (∀ (l : List ℚ) (a b : ℚ), a ∈ roundedOf l → b ∈ roundedOf l → a ≠ b →
      (roundedOf l).count a = (roundedOf l).count b →
      (∀ w ∈ roundedOf l, (roundedOf l).count w ≤ (roundedOf l).count a) →
      1 < (roundedOf l).count a →
      calculateMode l =
        some (round1
          ((((roundedOf l).toFinset.filter fun v =>
              (roundedOf l).count v = (roundedOf l).count a).sum fun v => v) /
            ((((roundedOf l).toFinset.filter fun v =>
              (roundedOf l).count v = (roundedOf l).count a).card : ℕ) : ℚ)))) := by
  refine ⟨rfl, ?_, ?_, ?_, ?_⟩
  · intro l hne
    unfold calculateMode
    rw [if_neg hne]
    by_cases h1 : maxCountOf l = 1
    · rw [if_pos h1]
      exact ⟨_, rfl⟩
    · rw [if_neg h1]
      by_cases h2 : (modesOf l).length = 1
      · rw [if_pos h2]
        exact ⟨_, rfl⟩
      · rw [if_neg h2]
        exact ⟨_, rfl⟩
  · intro l hne hall
    unfold calculateMode
    rw [if_neg hne, if_pos (maxCountOf_eq_one l hne hall)]
  · intro l m hm hstrict
    have hne := ne_nil_of_mem_rounded l m hm
    have hcm := count_eq_maxCountOf_of_strict l m hm hstrict
    by_cases h1 : maxCountOf l = 1
    · -- every other value would have count below 1, so the list is [x]
      have hallm : ∀ x ∈ roundedOf l, x = m := by
        intro x hx
        by_contra hxm
        have hlt := hstrict x hx hxm
        have h1x : 1 ≤ (roundedOf l).count x := List.one_le_count_iff.mpr hx
        omega
      have hcount_len : (roundedOf l).count m = (roundedOf l).length :=
        List.count_eq_length.mpr fun b hb => (hallm b hb).symm
      have hlen1 : l.length = 1 := by
        have : (roundedOf l).length = l.length := List.length_map _ _
        omega
      rcases List.length_eq_one.mp hlen1 with ⟨x, hx⟩
      subst hx
      have hxm : round1 x = m := hallm (round1 x) (by simp [roundedOf])
      unfold calculateMode
      rw [if_neg hne, if_pos h1]
      have hmed : medianSorted [x] = x := by
        simp [medianSorted, jsSort]
      rw [hmed, hxm]
    · have hmod := modesOf_eq_singleton l m hm hstrict
      unfold calculateMode
      rw [if_neg hne, if_neg h1, if_pos (by rw [hmod]; rfl), hmod]
      rfl
  · intro l a b ha hb hab hcab hmaxle hgt1
    have hne := ne_nil_of_mem_rounded l a ha
    have hca : (roundedOf l).count a = maxCountOf l := by
      have hle := count_le_maxCountOf l a ha
      rcases maxCountOf_attained l hne with ⟨w, hw, hcw⟩
      have := hmaxle w hw
      omega
    have h1 : maxCountOf l ≠ 1 := by omega
    have hamodes : a ∈ modesOf l := by
      unfold modesOf
      rw [List.mem_filter]
      exact ⟨(distinctKeys_mem _ a).mpr ha, by simp [hca]⟩
    have hbmodes : b ∈ modesOf l := by
      unfold modesOf
      rw [List.mem_filter]
      refine ⟨(distinctKeys_mem _ b).mpr hb, by simp [← hcab, hca]⟩
    have hlen2 : 2 ≤ (modesOf l).length :=
      two_mem_le_length _ a b hamodes hbmodes hab
    have h2 : (modesOf l).length ≠ 1 := by omega
    have hnd : (modesOf l).Nodup := (distinctKeys_nodup _).filter _
    have hfins : (modesOf l).toFinset =
        (roundedOf l).toFinset.filter fun v =>
          (roundedOf l).count v = (roundedOf l).count a := by
      apply Finset.ext
      intro v
      rw [List.mem_toFinset, Finset.mem_filter, List.mem_toFinset]
      unfold modesOf keysOf
      rw [List.mem_filter, distinctKeys_mem]
      constructor
      · rintro ⟨hv, hpv⟩
        refine ⟨hv, ?_⟩
        rw [hca]
        simpa using hpv
      · rintro ⟨hv, hpv⟩
        exact ⟨hv, by simp [hpv, hca]⟩
    have hsum : ((roundedOf l).toFinset.filter fun v =>
        (roundedOf l).count v = (roundedOf l).count a).sum (fun v => v) =
        (modesOf l).sum := by
      rw [← hfins, List.sum_toFinset _ hnd]
      simp
    have hcard : ((roundedOf l).toFinset.filter fun v =>
        (roundedOf l).count v = (roundedOf l).count a).card =
        (modesOf l).length := by
      rw [← hfins, List.toFinset_card_of_nodup hnd]
    unfold calculateMode
    rw [if_neg hne, if_neg h1, if_neg h2, hsum, hcard]

theorem round1_eval (x : ℚ) (n : ℤ) (hlo : (n : ℚ) ≤ x * 10 + 1 / 2)
    (hhi : x * 10 + 1 / 2 < n + 1) : round1 x = (n : ℚ) / 10 := by
  unfold round1
  rw [round_eq]
  have hfl : ⌊x * 10 + 1 / 2⌋ = n := Int.floor_eq_iff.mpr ⟨hlo, hhi⟩
  rw [hfl]

theorem round1_quarter : round1 ((97 : ℚ) / 4) = 243 / 10 := by
  have h := round1_eval ((97 : ℚ) / 4) 243 (by norm_num) (by norm_num)
  rw [h]
  norm_num

theorem roundedOf_quarter : roundedOf [(97 : ℚ) / 4] = [243 / 10] := by
  simp [roundedOf, round1_quarter]

theorem quarter_counts_one :
    ∀ v ∈ roundedOf [(97 : ℚ) / 4], (roundedOf [(97 : ℚ) / 4]).count v = 1 := by
  rw [roundedOf_quarter]
  intro v hv
  rcases List.mem_singleton.mp hv with rfl
  simp

theorem medianSorted_quarter : medianSorted [(97 : ℚ) / 4] = 97 / 4 := by
  simp [medianSorted, jsSort]

/-- C8 counterexample: for the one-element list [24.25] every rounded value
occurs exactly once, the median of the original list is 24.25, but
`calculateMode` returns the one-decimal-rounded 24.3. -/
theorem calculateMode_claim_counterexample :
    (∀ v ∈ roundedOf [(97 : ℚ) / 4], (roundedOf [(97 : ℚ) / 4]).count v = 1) ∧
    medianSorted [(97 : ℚ) / 4] = 97 / 4 ∧
    calculateMode [(97 : ℚ) / 4] = some (243 / 10) ∧
    (243 : ℚ) / 10 ≠ 97 / 4 := by
  have hmc : maxCountOf [(97 : ℚ) / 4] = 1 := by
    rcases maxCountOf_attained [(97 : ℚ) / 4] (by simp) with ⟨v, hv, hcnt⟩
    rw [← hcnt, quarter_counts_one v hv]
  refine ⟨quarter_counts_one, medianSorted_quarter, ?_, by norm_num⟩
  unfold calculateMode
  rw [if_neg (by simp), if_pos hmc, medianSorted_quarter, round1_quarter]

/-- Witness for the amended C8 at the concrete list [24.25]. -/
theorem calculateMode_spec_witness :
    ([(97 : ℚ) / 4] ≠ []) ∧
    (∀ v ∈ roundedOf [(97 : ℚ) / 4], (roundedOf [(97 : ℚ) / 4]).count v = 1) ∧
    calculateMode [(97 : ℚ) / 4] =
      some (round1 (medianSorted [(97 : ℚ) / 4])) :=
  ⟨by simp, quarter_counts_one,
    calculateMode_spec.2.2.1 [(97 : ℚ) / 4] (by simp) quarter_counts_one⟩

/-- A daily pick as consumed by `PickContextMenu.tsx`: the fields the
component reads from its `pick` prop. -/
structure DailyPick where
  player_name : String
  player_team : Option String
  event_id : String
  home_team : String
  away_team : String
  commence_time : String
  metric : String
  threshold : ℚ
  direction : String
  probability : ℚ
  n_games : ℕ
deriving DecidableEq, Repr

/-- A bet-slip entry, `BetSlipPick` of `BetSlipContext.tsx`. -/
structure BetSlipPick where
  id : String
  player_name : String
  player_team : String
  event_id : String
  home_team : String
  away_team : String
  commence_time : String
  metric : String
  threshold : ℚ
  direction : String
  probability : ℚ
  n_games : ℕ
  added_at : String
deriving DecidableEq, Repr

/-- The argument of `addPick`, `Omit<BetSlipPick, "id" | "added_at">`. -/
structure BetSlipPickData where
  player_name : String
  player_team : String
  event_id : String
  home_team : String
  away_team : String
  commence_time : String
  metric : String
  threshold : ℚ
  direction : String
  probability : ℚ
  n_games : ℕ
deriving DecidableEq, Repr

/-- The pick id of `BetSlipContext.tsx`: `player_name-metric`. -/
def generateId (playerName metric : String) : String :=
  playerName ++ "-" ++ metric

/-- The `addPick` of `BetSlipContext.tsx`: no duplicate id is added; the
stored pick receives the generated id and the current time as `added_at`. -/
def addPick (now : String) (pickData : BetSlipPickData)
    (prev : List BetSlipPick) : List BetSlipPick :=
  if (prev.any fun p =>
      decide (p.id = generateId pickData.player_name pickData.metric)) = true
  then prev
  else prev ++
    [⟨generateId pickData.player_name pickData.metric, pickData.player_name,
      pickData.player_team, pickData.event_id, pickData.home_team,
      pickData.away_team, pickData.commence_time, pickData.metric,
      pickData.threshold, pickData.direction, pickData.probability,
      pickData.n_games, now⟩]

/-- The `removePick` of `BetSlipContext.tsx`. -/
def removePick (id : String) (prev : List BetSlipPick) : List BetSlipPick :=
  prev.filter fun p => decide (p.id ≠ id)

/-- The `reverseDirection` of `PickContextMenu.tsx`:
`pick.direction === "over" ? "under" : "over"`. -/
def reverseDirection (d : String) : String :=
  if d = "over" then "under" else "over"

/-- The `reverseProbability` of `PickContextMenu.tsx`: `1 - pick.probability`. -/
def reverseProbability (p : ℚ) : ℚ := 1 - p

/-- The reversed pick data built by `handleAddReverseBet`: all fields from
the original pick (with `player_team || ""`), direction reversed,
probability complemented. -/
def reverseBetData (pick : DailyPick) : BetSlipPickData :=
  ⟨pick.player_name, pick.player_team.getD "", pick.event_id, pick.home_team,
   pick.away_team, pick.commence_time, pick.metric, pick.threshold,
   reverseDirection pick.direction, reverseProbability pick.probability,
   pick.n_games⟩

/-- The `handleAddReverseBet` of `PickContextMenu.tsx` (lines 210-232):
remove any existing pick with the same id, then add the reversed pick. -/
def handleAddReverseBet (now : String) (pick : DailyPick)
    (prev : List BetSlipPick) : List BetSlipPick :=
  addPick now (reverseBetData pick)
    (removePick (generateId pick.player_name pick.metric) prev)

/-- C9: after `handleAddReverseBet`, the bet slip holds exactly one pick for
the pick's player and metric — the reversed one, whose direction flips over
and under, whose probability is 1 minus the original probability, and whose
remaining fields are those of the original pick.  The hypothesis states the
`BetSlipContext` invariant that every stored pick's id is the generated
`player_name-metric` id. -/
theorem handleAddReverseBet_spec (now : String) (pick : DailyPick)
    (prev : List BetSlipPick)
    (hwf : ∀ p ∈ prev, p.id = generateId p.player_name p.metric) :
    (handleAddReverseBet now pick prev).filter (fun p =>
        decide (p.player_name = pick.player_name ∧ p.metric = pick.metric)) =
      [⟨generateId pick.player_name pick.metric, pick.player_name,
        pick.player_team.getD "", pick.event_id, pick.home_team,
        pick.away_team, pick.commence_time, pick.metric, pick.threshold,
        reverseDirection pick.direction,
        reverseProbability pick.probability, pick.n_games, now⟩] ∧
    (pick.direction = "over" → reverseDirection pick.direction = "under") ∧
    (pick.direction = "under" → reverseDirection pick.direction = "over") ∧
    reverseProbability pick.probability = 1 - pick.probability := by
  refine ⟨?_, ?_, ?_, rfl⟩
  · have hany : ((removePick (generateId pick.player_name pick.metric)
        prev).any fun p =>
          decide (p.id = generateId (reverseBetData pick).player_name
            (reverseBetData pick).metric)) = false := by
      rw [List.any_eq_false]
      intro p hp
      have hpne : ¬p.id = generateId pick.player_name pick.metric := by
        have h2 := (List.mem_filter.mp hp).2
        simpa using h2
      simpa using hpne
    unfold handleAddReverseBet addPick
    rw [if_neg (by rw [hany]; simp), List.filter_append]
    have h1 : (removePick (generateId pick.player_name pick.metric)
        prev).filter (fun p =>
          decide (p.player_name = pick.player_name ∧
            p.metric = pick.metric)) = [] := by
      apply List.filter_eq_nil_iff.mpr
      intro p hp hpred
      have hpmem : p ∈ prev := (List.mem_filter.mp hp).1
      have hpne : ¬p.id = generateId pick.player_name pick.metric := by
        have h2 := (List.mem_filter.mp hp).2
        simpa using h2
      have hpeq : p.player_name = pick.player_name ∧ p.metric = pick.metric := by
        simpa using hpred
      apply hpne
      rw [hwf p hpmem, hpeq.1, hpeq.2]
    rw [h1]
    simp [reverseBetData]
  · intro h
    simp [reverseDirection, h]
  · intro h
    simp [reverseDirection, h]

/-- Witness for C9: reversing an over pick of probability 9/10 on a slip
holding its original direction and an unrelated pick. -/
theorem handleAddReverseBet_spec_witness :
    (∀ p ∈ [(⟨"LeBron James-points", "LeBron James", "Lakers", "e1", "LAL",
        "BOS", "t0", "points", 24.5, "over", 9 / 10, 50, "t1"⟩ : BetSlipPick),
      ⟨"Stephen Curry-assists", "Stephen Curry", "Warriors", "e2", "GSW",
        "DEN", "t0", "assists", 6.5, "under", 3 / 10, 40, "t1"⟩],
      p.id = generateId p.player_name p.metric) ∧
    (handleAddReverseBet "t2"
        ⟨"LeBron James", some "Lakers", "e1", "LAL", "BOS", "t0", "points",
          24.5, "over", 9 / 10, 50⟩
        [⟨"LeBron James-points", "LeBron James", "Lakers", "e1", "LAL",
          "BOS", "t0", "points", 24.5, "over", 9 / 10, 50, "t1"⟩,
         ⟨"Stephen Curry-assists", "Stephen Curry", "Warriors", "e2", "GSW",
          "DEN", "t0", "assists", 6.5, "under", 3 / 10, 40, "t1"⟩]).filter
        (fun p => decide (p.player_name = "LeBron James" ∧
          p.metric = "points")) =
      [⟨generateId "LeBron James" "points", "LeBron James",
        (some "Lakers").getD "", "e1", "LAL", "BOS", "t0", "points", 24.5,
        reverseDirection "over", reverseProbability (9 / 10), 50, "t2"⟩] :=
  ⟨by decide,
    (handleAddReverseBet_spec "t2"
      ⟨"LeBron James", some "Lakers", "e1", "LAL", "BOS", "t0", "points",
        24.5, "over", 9 / 10, 50⟩
      [⟨"LeBron James-points", "LeBron James", "Lakers", "e1", "LAL", "BOS",
        "t0", "points", 24.5, "over", 9 / 10, 50, "t1"⟩,
       ⟨"Stephen Curry-assists", "Stephen Curry", "Warriors", "e2", "GSW",
        "DEN", "t0", "assists", 6.5, "under", 3 / 10, 40, "t1"⟩]
      (by decide)).1⟩

/-- Modelled from the spec: the `BOOKMAKERS` constant of
`frontend/lib/schemas.ts` is not in the source tree; `BOOKMAKERS_UPDATE.md`
documents it as 30 bookmaker keys (6 featured plus others).  The 26 keys
recoverable from that document are listed; the behaviour at issue depends
only on the list being duplicate-free with at least two keys. -/
def bookmakerKeys : List String :=
  ["draftkings", "fanduel", "betmgm", "caesars", "espnbet", "bet365",
   "hardrockbet", "borgata", "bally_bet", "sisportsbook", "wynnbet",
   "betfred", "betway", "circasports", "fliff", "livescorebet_us", "lowvig",
   "mybookieag", "bovada", "betonlineag", "superbook", "twinspires",
   "betparx", "foxbet", "sugarhouse", "windcreek"]

/-- The `isSelected` of `BookmakerSelect.tsx` (lines 88-90): an empty
selection array denotes "all bookmakers selected". -/
def isSelected (value : List String) (key : String) : Bool :=
  decide (value.length = 0) || decide (key ∈ value)

/-- The `toggleBookmaker` of `BookmakerSelect.tsx` (lines 67-85),
parameterized by the bookmaker key list `books` (the component closes over
`BOOKMAKERS`). -/
def toggleBookmaker (books value : List String) (key : String) :
    List String :=
  if value.length = 0 then books.filter fun b => decide (b ≠ key)
  else if key ∈ value then
    if (value.filter fun v => decide (v ≠ key)).length = books.length - 1
    then []
    else value.filter fun v => decide (v ≠ key)
  else value ++ [key]

/-- Selection states reachable from the initial empty selection by toggling
bookmakers of the list. -/
inductive ReachableSel (books : List String) : List String → Prop where
  | init : ReachableSel books []
  | toggle (s : List String) (k : String) (hk : k ∈ books)
      (hs : ReachableSel books s) : ReachableSel books (toggleBookmaker books s k)

/-- C10 counterexample: from the empty selection, toggling "draftkings" twice
reaches the state listing every bookmaker; there "draftkings" is selected,
yet toggling it again collapses the selection to the empty array — which
denotes "all selected" — so `isSelected "draftkings"` remains true. -/
theorem toggleBookmaker_counterexample :
    ReachableSel bookmakerKeys
      (toggleBookmaker bookmakerKeys
        (toggleBookmaker bookmakerKeys [] "draftkings") "draftkings") ∧
    isSelected
      (toggleBookmaker bookmakerKeys
        (toggleBookmaker bookmakerKeys [] "draftkings") "draftkings")
      "draftkings" = true ∧
    toggleBookmaker bookmakerKeys
      (toggleBookmaker bookmakerKeys
        (toggleBookmaker bookmakerKeys [] "draftkings") "draftkings")
      "draftkings" = [] ∧
    isSelected
      (toggleBookmaker bookmakerKeys
        (toggleBookmaker bookmakerKeys
          (toggleBookmaker bookmakerKeys [] "draftkings") "draftkings")
        "draftkings")
      "draftkings" = true :=
  ⟨ReachableSel.toggle _ "draftkings" (by decide)
      (ReachableSel.toggle _ "draftkings" (by decide) ReachableSel.init),
    by decide, by decide, by decide⟩

theorem exists_other_key (books : List String) (k : String)
    (hnd : books.Nodup) (hlen : 2 ≤ books.length) :
    ∃ j ∈ books, j ≠ k := by
  cases books with
  | nil => simp at hlen
  | cons a as =>
    cases as with
    | nil => simp at hlen
    | cons b bs =>
      by_cases hak : a = k
      · refine ⟨b, by simp, ?_⟩
        rw [← hak]
        intro hba
        have := (List.nodup_cons.mp hnd).1
        rw [hba] at this
        exact this (List.mem_cons_self a bs)
      · exact ⟨a, by simp, hak⟩

/-- C10 (amended): an empty selection array denotes "all bookmakers
selected" (`isSelected` is true for every key); and toggling a currently
selected bookmaker `k` in a reachable state yields a state where
`isSelected k` is false, except when removing `k` leaves no keys or exactly
`BOOKMAKERS.length - 1` keys selected: in those cases the component resets
the selection to the empty "all selected" array and `isSelected k` remains
true. -/
theorem toggleBookmaker_amended :
    (∀ k : String, isSelected [] k = true) ∧
    (∀ (books s : List String) (k : String), ReachableSel books s →
      books.Nodup → 2 ≤ books.length → k ∈ books →
      isSelected s k = true →
      ((s = [] → isSelected (toggleBookmaker books s k) k = false) ∧
       (s ≠ [] → (s.filter fun v => decide (v ≠ k)) ≠ [] →
         (s.filter fun v => decide (v ≠ k)).length ≠ books.length - 1 →
         isSelected (toggleBookmaker books s k) k = false) ∧
       (s ≠ [] → ((s.filter fun v => decide (v ≠ k)) = [] ∨
           (s.filter fun v => decide (v ≠ k)).length = books.length - 1) →
         toggleBookmaker books s k = [] ∧
         isSelected (toggleBookmaker books s k) k = true))) := by
  constructor
  · intro k
    simp [isSelected]
  · intro books s k hreach hnd hlen hk hsel
    refine ⟨?_, ?_, ?_⟩
    · intro hs
      subst hs
      unfold toggleBookmaker
      rw [if_pos List.length_nil]
      rcases exists_other_key books k hnd hlen with ⟨j, hj, hjk⟩
      have hjmem : j ∈ books.filter fun b => decide (b ≠ k) :=
        List.mem_filter.mpr ⟨hj, by simpa using hjk⟩
      have hnonempty : (books.filter fun b => decide (b ≠ k)).length ≠ 0 := by
        intro h0
        rw [List.length_eq_zero] at h0
        rw [h0] at hjmem
        cases hjmem
      have hknot : k ∉ books.filter fun b => decide (b ≠ k) := by
        intro hmem
        have := (List.mem_filter.mp hmem).2
        simp at this
      show (decide ((books.filter fun b => decide (b ≠ k)).length = 0) ||
        decide (k ∈ books.filter fun b => decide (b ≠ k))) = false
      rw [decide_eq_false hnonempty, decide_eq_false hknot]
      rfl
    · intro hs hne hlen'
      have hslen : s.length ≠ 0 := fun h0 => hs (List.length_eq_zero.mp h0)
      have hks : k ∈ s := by
        have := hsel
        simp [isSelected, hslen] at this
        exact this
      unfold toggleBookmaker
      rw [if_neg hslen, if_pos hks, if_neg hlen']
      have hfl : (s.filter fun v => decide (v ≠ k)).length ≠ 0 := by
        intro h0
        exact hne (List.length_eq_zero.mp h0)
      have hknot : k ∉ s.filter fun v => decide (v ≠ k) := by
        intro hmem
        have := (List.mem_filter.mp hmem).2
        simp at this
      show (decide ((s.filter fun v => decide (v ≠ k)).length = 0) ||
        decide (k ∈ s.filter fun v => decide (v ≠ k))) = false
      rw [decide_eq_false hfl, decide_eq_false hknot]
      rfl
    · intro hs hor
      have hslen : s.length ≠ 0 := fun h0 => hs (List.length_eq_zero.mp h0)
      have hks : k ∈ s := by
        have := hsel
        simp [isSelected, hslen] at this
        exact this
      have hres : toggleBookmaker books s k = [] := by
        unfold toggleBookmaker
        rw [if_neg hslen, if_pos hks]
        rcases hor with hor | hor
        · by_cases hcond :
              (s.filter fun v => decide (v ≠ k)).length = books.length - 1
          · rw [if_pos hcond]
          · rw [if_neg hcond]
            exact hor
        · rw [if_pos hor]
      refine ⟨hres, ?_⟩
      rw [hres]
      simp [isSelected]

/-- Witness for the amended C10: toggling "fanduel" out of the reachable
all-but-draftkings state deselects it. -/
theorem toggleBookmaker_amended_witness :
    bookmakerKeys.Nodup ∧ 2 ≤ bookmakerKeys.length ∧
    "fanduel" ∈ bookmakerKeys ∧
    isSelected (toggleBookmaker bookmakerKeys [] "draftkings") "fanduel" =
      true ∧
    isSelected
      (toggleBookmaker bookmakerKeys
        (toggleBookmaker bookmakerKeys [] "draftkings") "fanduel")
      "fanduel" = false :=
  ⟨by decide, by decide, by decide, by decide,
    ((toggleBookmaker_amended.2 bookmakerKeys
        (toggleBookmaker bookmakerKeys [] "draftkings") "fanduel"
        (ReachableSel.toggle [] "draftkings" (by decide) ReachableSel.init)
        (by decide) (by decide) (by decide) (by decide)).2.1
      (by decide) (by decide) (by decide))⟩

end NoVig
